import Mathlib

/-!
Verification development for the Markovia document annotation engine.

The definitions below are a shallow embedding of the two core subsystems:
* `src/rangeTracker.ts` — the line-range tracker (`adjustRanges`, `mergeRanges`,
  `addRange`, `removeRange`, `isLineInRanges`, `getLinesInRanges`);
* `src/markdownDecorator.ts` — the span parser (`parseAndDecorate`,
  `parseInlineFormatting`, the decoration-type table of `createDecorationTypes`).

Line numbers and range bounds are modelled as `Int` (JavaScript numbers used as
integers; `adjustRanges` can produce negative intermediate bounds, which its
validation step then drops).  Text is modelled as `List Char`; a column index is
a character index.
-/

namespace Markovia

/-- `LineRange` from `src/types/authorship.ts`: an inclusive, 0-indexed
line interval `{start, end}`. -/
structure LineRange where
  start : Int
  «end» : Int
deriving DecidableEq, Repr

/-- The body of the merge loop of `mergeRanges` (`rangeTracker.ts` lines 84-98).
`last` is the range currently at the tail of the `merged` array; a new range
either extends it (`current.start <= last.end + 1`, the end becoming
`Math.max(last.end, current.end)`) or is appended as a fresh range. -/
def mergeLoop (last : LineRange) : List LineRange → List LineRange
  | [] => [last]
  | current :: rest =>
    if current.start ≤ last.«end» + 1 then
      mergeLoop ⟨last.start, max last.«end» current.«end»⟩ rest
    else
      last :: mergeLoop current rest

/-- `mergeRanges` (`rangeTracker.ts` lines 77-101): sort by `start`
(JavaScript `sort` with comparator `a.start - b.start` is stable, as is
`List.insertionSort`), then coalesce overlapping or adjacent ranges. -/
def mergeRanges (ranges : List LineRange) : List LineRange :=
  match List.insertionSort (fun a b => a.start ≤ b.start) ranges with
  | [] => []
  | first :: rest => mergeLoop first rest

/-- `addRange` (`rangeTracker.ts` lines 106-108): `mergeRanges([...ranges, newRange])`. -/
def addRange (ranges : List LineRange) (newRange : LineRange) : List LineRange :=
  mergeRanges (ranges ++ [newRange])

/-- The loop body of `removeRange` (`rangeTracker.ts` lines 117-139): the
surviving pieces of one `range` after subtracting `rem`.  The parameter the
source also calls `removeRange` (shadowing the function name) is `rem` here. -/
def removePieces (rem range : LineRange) : List LineRange :=
  if rem.«end» < range.start ∨ rem.start > range.«end» then
    [range]
  else
    (if rem.start > range.start then
      [⟨range.start, min range.«end» (rem.start - 1)⟩] else []) ++
    (if rem.«end» < range.«end» then
      [⟨max range.start (rem.«end» + 1), range.«end»⟩] else [])

/-- `removeRange` (`rangeTracker.ts` lines 114-142). -/
def removeRange (ranges : List LineRange) (rem : LineRange) : List LineRange :=
  ranges.flatMap (removePieces rem)

/-- `isLineInRanges` (`rangeTracker.ts` lines 147-149). -/
def isLineInRanges (line : Int) (ranges : List LineRange) : Bool :=
  ranges.any fun range => decide (range.start ≤ line) && decide (line ≤ range.«end»)

/-- `getLinesInRanges` (`rangeTracker.ts` lines 154-164): the set of all line
numbers lying in some range (the source accumulates them into a `Set<number>`). -/
def getLinesInRanges (ranges : List LineRange) : Finset Int :=
  ranges.foldl (fun lines range => lines ∪ Finset.Icc range.start range.«end») ∅

/-- A `TextDocumentContentChangeEvent` restricted to the fields `adjustRanges`
reads: `change.range.start.line`, `change.range.end.line`, `change.text`. -/
structure TextChange where
  startLine : Int
  endLine : Int
  text : List Char
deriving DecidableEq, Repr

/-- `newText.split('\n').length - 1` (`rangeTracker.ts` line 19), i.e. the
number of newline characters of the inserted text. -/
def countNewlines (text : List Char) : Nat :=
  text.countP (· = '\n')

/-- The per-range case analysis of `adjustRanges` (`rangeTracker.ts` lines
26-62).  `none` models the `continue` that skips a completely deleted range;
the inner condition `startLine <= range.start && endLine >= range.end` is kept
even though it is redundant in its context, as in the source. -/
def adjustOne (startLine endLine newLineCount linesDelta : Int)
    (range : LineRange) : Option LineRange :=
  if startLine ≤ range.start then
    if endLine < range.start then
      some ⟨range.start + linesDelta, range.«end» + linesDelta⟩
    else if endLine ≤ range.«end» then
      if startLine < range.start then
        some ⟨startLine + newLineCount, range.«end» + linesDelta⟩
      else
        some ⟨range.start, range.«end» + linesDelta⟩
    else
      if startLine ≤ range.start ∧ endLine ≥ range.«end» then none
      else some range
  else if startLine ≤ range.«end» then
    if endLine ≤ range.«end» then
      some ⟨range.start, range.«end» + linesDelta⟩
    else
      some ⟨range.start, startLine⟩
  else
    some range

/-- The `adjustedRanges` array of `adjustRanges` (`rangeTracker.ts` lines
24-68): every range adjusted by `adjustOne`, with any result violating
`newRange.start <= newRange.end && newRange.start >= 0` dropped.  Here
`startLine = change.range.start.line`, `endLine = change.range.end.line`,
`newLineCount = change.text.split('\n').length - 1` and
`linesDelta = newLineCount - (endLine - startLine)`. -/
def adjustedRanges (ranges : List LineRange) (change : TextChange) : List LineRange :=
  ranges.filterMap fun range =>
    match adjustOne change.startLine change.endLine (countNewlines change.text)
        ((countNewlines change.text : Int) - (change.endLine - change.startLine)) range with
    | none => none
    | some newRange =>
      if newRange.start ≤ newRange.«end» ∧ 0 ≤ newRange.start then some newRange
      else none

/-- `adjustRanges` (`rangeTracker.ts` lines 7-72): adjust every range, drop any
result with `start > end` or `start < 0`, then merge. -/
def adjustRanges (ranges : List LineRange) (change : TextChange) : List LineRange :=
  if ranges = [] then [] else mergeRanges (adjustedRanges ranges change)

/-- `0 <= start <= end`, the structural validity of a single `LineRange`. -/
def validRange (r : LineRange) : Prop := 0 ≤ r.start ∧ r.start ≤ r.«end»

/-- Two ranges separated by at least one untagged line. -/
def gapped (a b : LineRange) : Prop := a.«end» + 2 ≤ b.start

/-- The `AnnotationSet` invariant of the specification: every range is
structurally valid, and the list is sorted with a gap of at least two between
the `end` of one range and the `start` of the next (which makes it strictly
sorted by `start`). -/
def SetInv (l : List LineRange) : Prop :=
  (∀ r ∈ l, validRange r) ∧ List.Pairwise gapped l

instance : DecidablePred validRange := fun r => by
  unfold validRange; infer_instance

instance (a b : LineRange) : Decidable (gapped a b) := by
  unfold gapped; infer_instance

instance : DecidablePred SetInv := fun l => by
  unfold SetInv; infer_instance

/-! ### Span parser: `markdownDecorator.ts`

Text is a list of characters; a column is a character index (for the UTF-16
code-unit indices of JavaScript strings this is the same thing on the
basic-multilingual-plane inputs considered here). -/

/-- One pushed decoration range: `new vscode.Range(new Position(line, colStart),
new Position(line, colEnd))`.  Every range the decorator pushes lies on a
single line. -/
structure Span where
  line : Nat
  colStart : Nat
  colEnd : Nat
deriving DecidableEq, Repr

/-- The decorations map of `updateDecorations`: for each registered decoration
key, the list of pushed spans, in push order. -/
abbrev Decorations := List (String × List Span)

/-- The decoration keys registered by `createDecorationTypes`
(`markdownDecorator.ts` lines 11-165), in registration order.  The
`codeblock-fence` and `codeblock-content` types (lines 141-148) are commented
out in the source and therefore NOT registered. -/
def decorationKeys : List String :=
  ["h1-content", "h1-syntax", "h2-content", "h2-syntax", "h3-content",
   "h3-syntax", "h4-content", "h4-syntax", "h5-content", "h5-syntax",
   "h6-content", "h6-syntax", "bold-content", "bold-syntax", "italic-content",
   "italic-syntax", "strikethrough-content", "strikethrough-syntax",
   "underline-content", "underline-syntax", "code-content", "code-syntax",
   "link-text", "link-syntax", "link-url", "list-marker", "blockquote-marker",
   "blockquote-content", "hr", "task-emoji", "recurrence-text"]

/-- `updateDecorations` initializes one empty array per registered key
(`markdownDecorator.ts` lines 175-178). -/
def initDecorations : Decorations := decorationKeys.map fun k => (k, [])

/-- The idiom `decorations.get(key)?.push({range})`: appends to the key's
array when the key is registered, and silently does nothing otherwise
(optional chaining on a `Map.get` that returns `undefined`). -/
def pushDecoration (d : Decorations) (key : String) (sp : Span) : Decorations :=
  d.map fun p => if p.1 = key then (p.1, p.2 ++ [sp]) else p

/-- A sequence of pushes. -/
def pushAll (d : Decorations) (spans : List (String × Span)) : Decorations :=
  spans.foldl (fun d ks => pushDecoration d ks.1 ks.2) d

/-- The JavaScript `\s` character class. -/
def isJsWs (c : Char) : Bool :=
  decide (c = ' ' ∨ c = '\t' ∨ c = '\n' ∨ c = Char.ofNat 0x0B ∨
    c = Char.ofNat 0x0C ∨ c = '\r' ∨ c = Char.ofNat 0xA0 ∨
    c = Char.ofNat 0x1680 ∨ (0x2000 ≤ c.toNat ∧ c.toNat ≤ 0x200A) ∨
    c = Char.ofNat 0x2028 ∨ c = Char.ofNat 0x2029 ∨ c = Char.ofNat 0x202F ∨
    c = Char.ofNat 0x205F ∨ c = Char.ofNat 0x3000 ∨ c = Char.ofNat 0xFEFF)

/-- The JavaScript `.` (no `s` flag): any character except a line
terminator. -/
def isJsDot (c : Char) : Bool :=
  decide (¬(c = '\n' ∨ c = '\r' ∨ c = Char.ofNat 0x2028 ∨ c = Char.ofNat 0x2029))

/-- The JavaScript `\d` character class. -/
def isJsDigit (c : Char) : Bool := decide ('0' ≤ c ∧ c ≤ '9')

/-- Length of the maximal whitespace run at the head of `l` (a greedy `\s*`). -/
def wsRunLen (l : List Char) : Nat := (l.takeWhile isJsWs).length

/-- Length of the maximal digit run at the head of `l` (a greedy `\d+`). -/
def digitRunLen (l : List Char) : Nat := (l.takeWhile isJsDigit).length

/-- `text.split('\n')` (`markdownDecorator.ts` line 194). -/
def splitLines : List Char → List (List Char)
  | [] => [[]]
  | c :: rest =>
    if c = '\n' then [] :: splitLines rest
    else
      match splitLines rest with
      | [] => [[c]]
      | l :: ls => (c :: l) :: ls

/-- The backtick character (code point 96). -/
def fenceChar : Char := Char.ofNat 96

/-- The fence test `/^```/` (line 203): the line starts with three
backticks. -/
def isFence (l : List Char) : Bool :=
  decide (l.take 3 = [fenceChar, fenceChar, fenceChar])

/-- Does `rest` match `\s+(.+)$`: some non-empty whitespace prefix can be
consumed (the greedy `\s+` backtracks) so that a non-empty suffix of
`.`-matching characters remains. -/
def wsThenDots : List Char → Bool
  | [] => false
  | c :: cs => isJsWs c && ((!cs.isEmpty && cs.all isJsDot) || wsThenDots cs)

/-- The heading regex `/^(#{1,6})\s+(.+)$/` (line 225); returns the level
`match[1].length`.  A run of 7 or more marker characters never matches: after
any backtracking of `#{1,6}` the `\s+` would sit on a `#`. -/
def headingMatch (l : List Char) : Option Nat :=
  let n := (l.takeWhile (fun c => c == '#')).length
  if 1 ≤ n ∧ n ≤ 6 ∧ wsThenDots (l.drop n) then some n else none

/-- The horizontal-rule regex `/^(-{3,}|\*{3,}|_{3,})$/` (line 248): the whole
line is three or more repetitions of one of `-`, `*`, `_`. -/
def hrMatch (l : List Char) : Bool :=
  match l with
  | c :: _ =>
    decide (c = '-' ∨ c = '*' ∨ c = '_') && decide (3 ≤ l.length) &&
      l.all (fun x => x == c)
  | [] => false

/-- The blockquote regex `/^>\s?(.*)$/` (line 255); returns the `(.*)` group.
The greedy `\s?` prefers to consume one whitespace character; `.` does not
match `\r` (nor the U+2028 and U+2029 separators), so a line with such a
character after `>` can fail to match at all. -/
def blockquoteMatch : List Char → Option (List Char)
  | '>' :: rest =>
    match rest with
    | [] => some []
    | c :: cs =>
      if isJsWs c && cs.all isJsDot then some cs
      else if (c :: cs).all isJsDot then some (c :: cs)
      else none
  | _ => none

/-- `markerEnd` for a blockquote line (line 257):
`indexOf('>') + 1 + (line[indexOf('>') + 1] === ' ' ? 1 : 0)`, where
`indexOf('>') = 0` on a matching line.  Only a literal space (not an arbitrary
`\s` character) widens the marker. -/
def bqMarkerEnd (l : List Char) : Nat :=
  1 + (if l[1]? = some ' ' then 1 else 0)

/-- The task regex `/^(\s*)([-*+])\s+\[([ xX])\]\s+/` (line 275); returns
`(markerStart, markerEnd, checkChar)` with `markerStart = match[1].length` and
`markerEnd = match[0].length` (which includes the trailing whitespace run). -/
def taskMatch (l : List Char) : Option (Nat × Nat × Char) :=
  let i := wsRunLen l
  match l[i]? with
  | some m =>
    if m = '-' ∨ m = '*' ∨ m = '+' then
      let w1 := wsRunLen (l.drop (i + 1))
      if 1 ≤ w1 ∧ l[i + 1 + w1]? = some '[' then
        match l[i + 1 + w1 + 1]? with
        | some c =>
          if (c = ' ' ∨ c = 'x' ∨ c = 'X') ∧ l[i + 1 + w1 + 2]? = some ']' then
            let w2 := wsRunLen (l.drop (i + 1 + w1 + 3))
            if 1 ≤ w2 then some (i, i + 1 + w1 + 3 + w2, c) else none
          else none
        | none => none
      else none
    else none
  | none => none

/-- The list regex `/^(\s*)([-*+]|\d+\.)\s/` (line 299); returns
`(markerStart, match[2].length)`.  The `[-*+]` alternative is tried before
`\d+\.`; the greedy `\s*` cannot backtrack usefully since none of the marker
characters are whitespace. -/
def listMatch (l : List Char) : Option (Nat × Nat) :=
  let i := wsRunLen l
  match l[i]? with
  | some m =>
    if (m = '-' ∨ m = '*' ∨ m = '+') ∧ (l[i + 1]?.elim false isJsWs) then
      some (i, 1)
    else
      let d := digitRunLen (l.drop i)
      if 1 ≤ d ∧ l[i + d]? = some '.' ∧ (l[i + d + 1]?.elim false isJsWs) then
        some (i, d + 1)
      else none
  | none => none

/-- Index of the first character at position at least `i` satisfying `p`. -/
def findIdxFrom (p : Char → Bool) (l : List Char) (i : Nat) : Option Nat :=
  ((l.drop i).findIdx? p).map (· + i)

/-- A link match of `/\[([^\]]+)\]\(([^)]+)\)/`: the positions of the opening
bracket (`match.index`), the closing bracket and the closing parenthesis. -/
structure LinkM where
  openBracket : Nat
  closeBracket : Nat
  closeParen : Nat
deriving DecidableEq, Repr

/-- The link regex attempted at position `i`: `[^\]]+` is a maximal run of at
least one non-`]` character followed by `]` (shortening the run cannot expose
another `]`), then `(`, then at least one non-`)` character followed by `)`. -/
def linkMatchAt (l : List Char) (i : Nat) : Option LinkM :=
  if l[i]? = some '[' then
    match findIdxFrom (fun c => c == ']') l (i + 1) with
    | some j =>
      if i + 2 ≤ j ∧ l[j + 1]? = some '(' then
        match findIdxFrom (fun c => c == ')') l (j + 2) with
        | some k => if j + 3 ≤ k then some ⟨i, j, k⟩ else none
        | none => none
      else none
    | none => none
  else none

/-- An inline-construct match: the bounds of the whole match and of its
content group. -/
structure InlineM where
  fullStart : Nat
  contentStart : Nat
  contentEnd : Nat
  fullEnd : Nat
deriving DecidableEq, Repr

/-- Driver for a `while ((match = regex.exec(line)))` loop with a `/g` regex:
starting at position `i`, emit the earliest match at or after `i` and resume
at the match's end.  All the regexes used here only produce non-empty matches,
so `fuel = l.length + 1` steps always carry the search past the end of the
line and the fuel never truncates anything. -/
def scanMatches {μ : Type} (matchAt : Nat → Option μ) (stop : μ → Nat) :
    Nat → Nat → List μ
  | 0, _ => []
  | fuel + 1, i =>
    match matchAt i with
    | some m => m :: scanMatches matchAt stop fuel (stop m)
    | none => scanMatches matchAt stop fuel (i + 1)

/-- All link matches of the line, leftmost first (line 325). -/
def linkMatches (l : List Char) : List LinkM :=
  scanMatches (linkMatchAt l) (fun m => m.closeParen + 1) (l.length + 1) 0

/-- One alternative (delimiter `d`, either `**` or `__`) of the bold regex
`/(\*\*|__)([^*_]+)\1/` at position `i`: `[^*_]+` is a maximal run of at least
one character that is neither `*` nor `_`, and the backreference must follow
it immediately (shortening the run cannot help, since the run's interior
characters cannot start `**` or `__`). -/
def boldBranch (l : List Char) (i : Nat) (d : Char) : Option InlineM :=
  if l[i]? = some d ∧ l[i + 1]? = some d then
    match findIdxFrom (fun c => c == '*' || c == '_') l (i + 2) with
    | some j =>
      if i + 3 ≤ j ∧ l[j]? = some d ∧ l[j + 1]? = some d then
        some ⟨i, i + 2, j, j + 2⟩
      else none
    | none => none
  else none

/-- The bold regex at position `i` (line 389); the `**` alternative is tried
first. -/
def boldMatchAt (l : List Char) (i : Nat) : Option InlineM :=
  (boldBranch l i '*').orElse fun _ => boldBranch l i '_'

/-- One alternative of the italic regex
`/(?<!\*)\*(?!\*)([^*]+)\*(?!\*)|(?<!_)_(?!_)([^_]+)_(?!_)/` (line 428) with
delimiter `d`. -/
def italicBranch (l : List Char) (i : Nat) (d : Char) : Option InlineM :=
  if (i = 0 ∨ ¬l[i - 1]? = some d) ∧ l[i]? = some d ∧ ¬l[i + 1]? = some d then
    match findIdxFrom (fun c => c == d) l (i + 1) with
    | some j =>
      if i + 2 ≤ j ∧ ¬l[j + 1]? = some d then some ⟨i, i + 1, j, j + 1⟩
      else none
    | none => none
  else none

/-- The italic regex at position `i`; the `*` alternative is tried first. -/
def italicMatchAt (l : List Char) (i : Nat) : Option InlineM :=
  (italicBranch l i '*').orElse fun _ => italicBranch l i '_'

/-- The strikethrough regex `/~~([^~]+)~~/` (line 467) at position `i`. -/
def strikeMatchAt (l : List Char) (i : Nat) : Option InlineM :=
  if l[i]? = some '~' ∧ l[i + 1]? = some '~' then
    match findIdxFrom (fun c => c == '~') l (i + 2) with
    | some j =>
      if i + 3 ≤ j ∧ l[j + 1]? = some '~' then some ⟨i, i + 2, j, j + 2⟩
      else none
    | none => none
  else none

/-- The underline regex `/<u>([^<]+)<\/u>/` (line 497) at position `i`. -/
def underlineMatchAt (l : List Char) (i : Nat) : Option InlineM :=
  if l[i]? = some '<' ∧ l[i + 1]? = some 'u' ∧ l[i + 2]? = some '>' then
    match findIdxFrom (fun c => c == '<') l (i + 3) with
    | some j =>
      if i + 4 ≤ j ∧ l[j + 1]? = some '/' ∧ l[j + 2]? = some 'u' ∧
          l[j + 3]? = some '>' then
        some ⟨i, i + 3, j, j + 4⟩
      else none
    | none => none
  else none

/-- The inline-code regex (one backtick, at least one non-backtick character,
one backtick; line 527) at position `i`. -/
def codeMatchAt (l : List Char) (i : Nat) : Option InlineM :=
  if l[i]? = some fenceChar then
    match findIdxFrom (fun c => c == fenceChar) l (i + 1) with
    | some j => if i + 2 ≤ j then some ⟨i, i + 1, j, j + 1⟩ else none
    | none => none
  else none

/-- All bold matches of the line, leftmost first. -/
def boldMatches (l : List Char) : List InlineM :=
  scanMatches (boldMatchAt l) (fun m => m.fullEnd) (l.length + 1) 0

/-- All italic matches of the line, leftmost first. -/
def italicMatches (l : List Char) : List InlineM :=
  scanMatches (italicMatchAt l) (fun m => m.fullEnd) (l.length + 1) 0

/-- All strikethrough matches of the line, leftmost first. -/
def strikeMatches (l : List Char) : List InlineM :=
  scanMatches (strikeMatchAt l) (fun m => m.fullEnd) (l.length + 1) 0

/-- All underline matches of the line, leftmost first. -/
def underlineMatches (l : List Char) : List InlineM :=
  scanMatches (underlineMatchAt l) (fun m => m.fullEnd) (l.length + 1) 0

/-- All inline-code matches of the line, leftmost first. -/
def codeMatches (l : List Char) : List InlineM :=
  scanMatches (codeMatchAt l) (fun m => m.fullEnd) (l.length + 1) 0

/-- The `excludedRanges` array (line 322): the full column range of every link
of the line. -/
def excludedOf (l : List Char) : List (Nat × Nat) :=
  (linkMatches l).map fun m => (m.openBracket, m.closeParen + 1)

/-- The `isExcluded` helper (lines 380-386). -/
def isExcluded (excluded : List (Nat × Nat)) (s e : Nat) : Bool :=
  excluded.any fun p =>
    (decide (p.1 ≤ s) && decide (s < p.2)) ||
    (decide (p.1 < e) && decide (e ≤ p.2)) ||
    (decide (s ≤ p.1) && decide (p.2 ≤ e))

/-- The five spans pushed for one link match (lines 338-376): opening
bracket, link text, middle `](`, URL, closing parenthesis. -/
def linkSpans (lineNo : Nat) (m : LinkM) : List (String × Span) :=
  [("link-syntax", ⟨lineNo, m.openBracket, m.openBracket + 1⟩),
   ("link-text", ⟨lineNo, m.openBracket + 1, m.closeBracket⟩),
   ("link-syntax", ⟨lineNo, m.closeBracket, m.closeBracket + 2⟩),
   ("link-url", ⟨lineNo, m.closeBracket + 2, m.closeParen⟩),
   ("link-syntax", ⟨lineNo, m.closeParen, m.closeParen + 1⟩)]

/-- The opening-marker, content and closing-marker spans of one inline
construct. -/
def inlineSpans (contentKey syntaxKey : String) (lineNo : Nat) (m : InlineM) :
    List (String × Span) :=
  [(syntaxKey, ⟨lineNo, m.fullStart, m.contentStart⟩),
   (contentKey, ⟨lineNo, m.contentStart, m.contentEnd⟩),
   (syntaxKey, ⟨lineNo, m.contentEnd, m.fullEnd⟩)]

/-- The spans pushed by the link pass. -/
def linkSpansOf (lineNo : Nat) (l : List Char) : List (String × Span) :=
  (linkMatches l).flatMap (linkSpans lineNo)

/-- The spans pushed by the bold pass (lines 388-425): a match inside an
excluded (link) range is skipped. -/
def boldSpansOf (lineNo : Nat) (l : List Char) : List (String × Span) :=
  (boldMatches l).flatMap fun m =>
    if isExcluded (excludedOf l) m.fullStart m.fullEnd then []
    else inlineSpans "bold-content" "bold-syntax" lineNo m

/-- The spans pushed by the italic pass (lines 427-464): a match inside an
excluded (link) range is skipped. -/
def italicSpansOf (lineNo : Nat) (l : List Char) : List (String × Span) :=
  (italicMatches l).flatMap fun m =>
    if isExcluded (excludedOf l) m.fullStart m.fullEnd then []
    else inlineSpans "italic-content" "italic-syntax" lineNo m

/-- The spans pushed by the strikethrough pass (lines 466-494): no exclusion
filter. -/
def strikeSpansOf (lineNo : Nat) (l : List Char) : List (String × Span) :=
  (strikeMatches l).flatMap
    (inlineSpans "strikethrough-content" "strikethrough-syntax" lineNo)

/-- The spans pushed by the underline pass (lines 496-524): no exclusion
filter. -/
def underlineSpansOf (lineNo : Nat) (l : List Char) : List (String × Span) :=
  (underlineMatches l).flatMap
    (inlineSpans "underline-content" "underline-syntax" lineNo)

/-- The spans pushed by the inline-code pass (lines 526-554): no exclusion
filter. -/
def codeSpansOf (lineNo : Nat) (l : List Char) : List (String × Span) :=
  (codeMatches l).flatMap (inlineSpans "code-content" "code-syntax" lineNo)

/-- `parseInlineFormatting` (lines 316-592): links first (recording the
exclusion set), then bold, italic, strikethrough, underline, inline code.
Only bold and italic consult the exclusion set.  The two task-metadata passes
(date-emoji and recurrence, lines 556-591) push only to the `task-emoji` and
`recurrence-text` keys, which no verified property concerns, and involve
UTF-16 surrogate-pair offsets; they are not modelled. -/
def parseInlineFormatting (lineNo : Nat) (l : List Char) (d : Decorations) :
    Decorations :=
  pushAll d (linkSpansOf lineNo l ++ boldSpansOf lineNo l ++
    italicSpansOf lineNo l ++ strikeSpansOf lineNo l ++
    underlineSpansOf lineNo l ++ codeSpansOf lineNo l)

/-- Processing of one line outside a code block (`markdownDecorator.ts`
lines 224-312): heading, else horizontal rule, else (blockquote markers,
which do NOT stop the line's processing), then task item, else list marker,
then inline formatting on the whole line — heading and horizontal-rule lines
`continue` without inline formatting. -/
def decorateLine (l : List Char) (i : Nat) (d : Decorations) : Decorations :=
  match headingMatch l with
  | some level =>
    pushDecoration
      (pushDecoration d ("h" ++ toString level ++ "-syntax") ⟨i, 0, level + 1⟩)
      ("h" ++ toString level ++ "-content") ⟨i, level + 1, l.length⟩
  | none =>
    if hrMatch l then
      pushDecoration d "hr" ⟨i, 0, l.length⟩
    else
      let d := match blockquoteMatch l with
        | some g =>
          let d := pushDecoration d "blockquote-marker" ⟨i, 0, bqMarkerEnd l⟩
          if !g.isEmpty then
            pushDecoration d "blockquote-content" ⟨i, bqMarkerEnd l, l.length⟩
          else d
        | none => d
      match taskMatch l with
      | some (markerStart, markerEnd, check) =>
        let d := pushDecoration d "list-marker" ⟨i, markerStart, markerEnd⟩
        let d := if check = 'x' ∨ check = 'X' then
            pushDecoration d "strikethrough-content" ⟨i, markerEnd, l.length⟩
          else d
        parseInlineFormatting i l d
      | none =>
        let d := match listMatch l with
          | some (markerStart, markerLen) =>
            pushDecoration d "list-marker"
              ⟨i, markerStart, markerStart + markerLen + 1⟩
          | none => d
        parseInlineFormatting i l d

/-- The line loop of `parseAndDecorate` (lines 198-313), processing the lines
from index `i` in code-block state `inCodeBlock`.  `lineStart` in the source
is `positionAt` applied to the offset of the start of line `i`, i.e. line `i`
column 0; the `codeBlockStart` variable of the source is written but never
read, and is omitted. -/
def processLines : List (List Char) → Nat → Bool → Decorations → Decorations
  | [], _, _, d => d
  | l :: ls, i, inCodeBlock, d =>
    if isFence l then
      processLines ls (i + 1) (!inCodeBlock)
        (pushDecoration d "codeblock-fence" ⟨i, 0, l.length⟩)
    else if inCodeBlock then
      processLines ls (i + 1) inCodeBlock
        (pushDecoration d "codeblock-content" ⟨i, 0, l.length⟩)
    else
      processLines ls (i + 1) inCodeBlock (decorateLine l i d)

/-- `parseAndDecorate` (lines 189-314) together with the decorations-map
initialization of `updateDecorations` (lines 172-186): parse the full text
and return the per-key span lists. -/
def parseAndDecorate (text : List Char) : Decorations :=
  processLines (splitLines text) 0 false initDecorations

/-- The span list pushed for `key` (empty when the key is unregistered). -/
def getSpans (d : Decorations) (key : String) : List Span :=
  ((d.find? fun p => p.1 == key).map Prod.snd).getD []

/-- All spans pushed on line `j`, over all registered keys. -/
def spansOnLine (d : Decorations) (j : Nat) : List Span :=
  d.flatMap fun p => p.2.filter fun sp => sp.line == j

/-- The code-block state of the line loop when it reaches line index `j` of
the given lines, starting in state `inB`. -/
def stateAt : List (List Char) → Bool → Nat → Bool
  | _, inB, 0 => inB
  | [], inB, _ + 1 => inB
  | l :: ls, inB, j + 1 => stateAt ls (if isFence l then !inB else inB) j

instance : IsTotal LineRange (fun a b => a.start ≤ b.start) :=
  ⟨fun a b => le_total a.start b.start⟩

instance : IsTrans LineRange (fun a b => a.start ≤ b.start) :=
  ⟨fun _ _ _ h1 h2 => le_trans h1 h2⟩

/-- Every range produced by the merge loop reuses the `start` of one of the
ranges it was given (only `end`s are rewritten by the loop). -/
theorem mergeLoop_start_mem :
    ∀ (rest : List LineRange) (last x : LineRange), x ∈ mergeLoop last rest →
      x.start = last.start ∨ x.start ∈ rest.map LineRange.start
  | [], last, x, hx => by
    simp only [mergeLoop, List.mem_singleton] at hx
    subst hx; exact Or.inl rfl
  | c :: rest, last, x, hx => by
    unfold mergeLoop at hx
    split at hx
    · rcases mergeLoop_start_mem rest _ x hx with h | h
      · exact Or.inl h
      · exact Or.inr (by simp [h])
    · rcases List.mem_cons.mp hx with rfl | hx'
      · exact Or.inl rfl
      · rcases mergeLoop_start_mem rest c x hx' with h | h
        · exact Or.inr (by simp [h])
        · exact Or.inr (by simp [h])

/-- The merge loop, run on a start-sorted list of structurally ordered ranges,
yields ranges that are ordered, pairwise separated by a gap of at least two,
and whose starts are bounded below by the first start. -/
theorem mergeLoop_inv :
    ∀ (rest : List LineRange) (last : LineRange),
      last.start ≤ last.«end» →
      (∀ r ∈ rest, r.start ≤ r.«end») →
      (∀ r ∈ rest, last.start ≤ r.start) →
      List.Pairwise (fun a b : LineRange => a.start ≤ b.start) rest →
      (∀ r ∈ mergeLoop last rest, r.start ≤ r.«end») ∧
        List.Pairwise gapped (mergeLoop last rest) ∧
        ∀ r ∈ mergeLoop last rest, last.start ≤ r.start
  | [], last, hval, _, _, _ => by
    refine ⟨?_, ?_, ?_⟩ <;> simp [mergeLoop, hval]
  | c :: rest, last, hval, hvalrest, hlb, hpair => by
    have hcval : c.start ≤ c.«end» := hvalrest c (by simp)
    have hclb : last.start ≤ c.start := hlb c (by simp)
    have hpair' : List.Pairwise (fun a b : LineRange => a.start ≤ b.start) rest :=
      (List.pairwise_cons.mp hpair).2
    have hcrest : ∀ r ∈ rest, c.start ≤ r.start := (List.pairwise_cons.mp hpair).1
    unfold mergeLoop
    split
    · -- current merges into last
      have ih := mergeLoop_inv rest ⟨last.start, max last.«end» c.«end»⟩
        (by simpa using Or.inl hval)
        (fun r hr => hvalrest r (by simp [hr]))
        (fun r hr => hlb r (by simp [hr]))
        hpair'
      exact ⟨ih.1, ih.2.1, ih.2.2⟩
    · -- current starts a new output range
      rename_i hgap
      have hgap' : last.«end» + 2 ≤ c.start := by omega
      have ih := mergeLoop_inv rest c hcval
        (fun r hr => hvalrest r (by simp [hr]))
        hcrest
        hpair'
      refine ⟨?_, ?_, ?_⟩
      · intro r hr
        rcases List.mem_cons.mp hr with rfl | hr'
        · exact hval
        · exact ih.1 r hr'
      · refine List.pairwise_cons.mpr ⟨?_, ih.2.1⟩
        intro x hx
        have := ih.2.2 x hx
        unfold gapped
        omega
      · intro r hr
        rcases List.mem_cons.mp hr with rfl | hr'
        · exact le_refl _
        · exact le_trans hclb (ih.2.2 r hr')

/-- `mergeRanges` of structurally ordered ranges (each `start ≤ end`) is
ordered and pairwise separated by at least one untagged line. -/
theorem mergeRanges_sep (l : List LineRange) (h : ∀ r ∈ l, r.start ≤ r.«end») :
    (∀ r ∈ mergeRanges l, r.start ≤ r.«end») ∧ List.Pairwise gapped (mergeRanges l) := by
  unfold mergeRanges
  have hperm := List.perm_insertionSort (fun a b : LineRange => a.start ≤ b.start) l
  have hsorted := List.sorted_insertionSort (fun a b : LineRange => a.start ≤ b.start) l
  have hvalid : ∀ r ∈ List.insertionSort (fun a b : LineRange => a.start ≤ b.start) l,
      r.start ≤ r.«end» := fun r hr => h r (hperm.mem_iff.mp hr)
  revert hvalid hsorted
  cases List.insertionSort (fun a b : LineRange => a.start ≤ b.start) l with
  | nil => intro _ _; exact ⟨by simp, List.Pairwise.nil⟩
  | cons first rest =>
    intro hsorted hvalid
    have hp := List.pairwise_cons.mp hsorted
    have ih := mergeLoop_inv rest first (hvalid first (by simp))
      (fun r hr => hvalid r (by simp [hr])) hp.1 hp.2
    exact ⟨ih.1, ih.2.1⟩

/-- Every `start` in `mergeRanges l` is the `start` of some range of `l`. -/
theorem mergeRanges_start_mem (l : List LineRange) :
    ∀ x ∈ mergeRanges l, ∃ r ∈ l, x.start = r.start := by
  unfold mergeRanges
  have hperm := List.perm_insertionSort (fun a b : LineRange => a.start ≤ b.start) l
  revert hperm
  cases List.insertionSort (fun a b : LineRange => a.start ≤ b.start) l with
  | nil => intro _ x hx; simp at hx
  | cons first rest =>
    intro hperm x hx
    rcases mergeLoop_start_mem rest first x hx with h | h
    · exact ⟨first, hperm.mem_iff.mp (by simp), h⟩
    · rcases List.mem_map.mp h with ⟨r, hr, hstart⟩
      exact ⟨r, hperm.mem_iff.mp (by simp [hr]), hstart.symm⟩

/-- The merge loop does not touch a list that is already pairwise gapped. -/
theorem mergeLoop_id :
    ∀ (rest : List LineRange) (last : LineRange),
      List.Pairwise gapped (last :: rest) → mergeLoop last rest = last :: rest
  | [], _, _ => rfl
  | c :: rest, last, hpair => by
    have hp := List.pairwise_cons.mp hpair
    have hgap : last.«end» + 2 ≤ c.start := hp.1 c (by simp)
    unfold mergeLoop
    rw [if_neg (by omega)]
    rw [mergeLoop_id rest c hp.2]

/-- A list already satisfying the gap invariant is a fixed point of
`mergeRanges`. -/
theorem mergeRanges_eq_self (l : List LineRange)
    (hval : ∀ r ∈ l, r.start ≤ r.«end») (hsep : List.Pairwise gapped l) :
    mergeRanges l = l := by
  have hsorted : List.Pairwise (fun a b : LineRange => a.start ≤ b.start) l := by
    refine hsep.imp_of_mem ?_
    intro a b ha _ hab
    have := hval a ha
    unfold gapped at hab
    omega
  unfold mergeRanges
  rw [List.Sorted.insertionSort_eq hsorted]
  cases l with
  | nil => rfl
  | cons first rest => exact mergeLoop_id rest first hsep

theorem bool_ext {a b : Bool} (h : a = true ↔ b = true) : a = b := by
  cases a <;> cases b <;> simp_all

theorem isLineInRanges_iff (n : Int) (l : List LineRange) :
    isLineInRanges n l = true ↔ ∃ r ∈ l, r.start ≤ n ∧ n ≤ r.«end» := by
  simp [isLineInRanges, List.any_eq_true]

/-- Membership in any of the ranges is invariant under permutation. -/
theorem isLineInRanges_perm {l l' : List LineRange} (h : l.Perm l') (n : Int) :
    isLineInRanges n l = isLineInRanges n l' := by
  refine bool_ext ?_
  rw [isLineInRanges_iff, isLineInRanges_iff]
  constructor
  · rintro ⟨r, hr, hn⟩; exact ⟨r, h.mem_iff.mp hr, hn⟩
  · rintro ⟨r, hr, hn⟩; exact ⟨r, h.mem_iff.mpr hr, hn⟩

/-- The merge loop preserves the set of covered lines. -/
theorem mergeLoop_cov :
    ∀ (rest : List LineRange) (last : LineRange) (n : Int),
      last.start ≤ last.«end» →
      (∀ r ∈ rest, r.start ≤ r.«end») →
      (∀ r ∈ rest, last.start ≤ r.start) →
      List.Pairwise (fun a b : LineRange => a.start ≤ b.start) rest →
      isLineInRanges n (mergeLoop last rest) = isLineInRanges n (last :: rest)
  | [], _, _, _, _, _, _ => rfl
  | c :: rest, last, n, hval, hvalrest, hlb, hpair => by
    have hcval : c.start ≤ c.«end» := hvalrest c (by simp)
    have hclb : last.start ≤ c.start := hlb c (by simp)
    have hpair' : List.Pairwise (fun a b : LineRange => a.start ≤ b.start) rest :=
      (List.pairwise_cons.mp hpair).2
    have hcrest : ∀ r ∈ rest, c.start ≤ r.start := (List.pairwise_cons.mp hpair).1
    unfold mergeLoop
    split
    · -- the two ranges coalesce: their interval union is one interval
      rename_i hmerge
      rw [mergeLoop_cov rest ⟨last.start, max last.«end» c.«end»⟩ n
        (by simpa using Or.inl hval)
        (fun r hr => hvalrest r (by simp [hr]))
        (fun r hr => hlb r (by simp [hr]))
        hpair']
      simp only [isLineInRanges, List.any_cons]
      have hkey : (decide (last.start ≤ n) && decide (n ≤ max last.«end» c.«end»)) =
          ((decide (last.start ≤ n) && decide (n ≤ last.«end»)) ||
            (decide (c.start ≤ n) && decide (n ≤ c.«end»))) := by
        refine bool_ext ?_
        simp only [Bool.or_eq_true, Bool.and_eq_true, decide_eq_true_eq, le_max_iff]
        omega
      show (decide (last.start ≤ n) && decide (n ≤ max last.«end» c.«end») || _) = _
      rw [hkey]
      cases List.any rest fun range => decide (range.start ≤ n) && decide (n ≤ range.«end») <;>
        simp [Bool.or_assoc]
    · show (decide (last.start ≤ n) && decide (n ≤ last.«end») ||
        isLineInRanges n (mergeLoop c rest)) = _
      rw [mergeLoop_cov rest c n hcval
        (fun r hr => hvalrest r (by simp [hr])) hcrest hpair']
      rfl

/-- `mergeRanges` preserves the covered-line predicate. -/
theorem mergeRanges_cov (l : List LineRange) (h : ∀ r ∈ l, r.start ≤ r.«end»)
    (n : Int) : isLineInRanges n (mergeRanges l) = isLineInRanges n l := by
  unfold mergeRanges
  have hperm := List.perm_insertionSort (fun a b : LineRange => a.start ≤ b.start) l
  have hsorted := List.sorted_insertionSort (fun a b : LineRange => a.start ≤ b.start) l
  have hvalid : ∀ r ∈ List.insertionSort (fun a b : LineRange => a.start ≤ b.start) l,
      r.start ≤ r.«end» := fun r hr => h r (hperm.mem_iff.mp hr)
  have hcov := isLineInRanges_perm hperm n
  revert hvalid hsorted hcov
  cases List.insertionSort (fun a b : LineRange => a.start ≤ b.start) l with
  | nil => intro _ _ hcov; exact hcov
  | cons first rest =>
    intro hsorted hvalid hcov
    have hp := List.pairwise_cons.mp hsorted
    rw [mergeLoop_cov rest first n (hvalid first (by simp))
      (fun r hr => hvalid r (by simp [hr])) hp.1 hp.2]
    exact hcov

/-- Interpreting the `Set<number>` built by `getLinesInRanges`. -/
theorem mem_getLinesInRanges (l : List LineRange) (n : Int) :
    n ∈ getLinesInRanges l ↔ isLineInRanges n l = true := by
  suffices h : ∀ acc : Finset Int,
      (n ∈ l.foldl (fun lines range => lines ∪ Finset.Icc range.start range.«end») acc ↔
        n ∈ acc ∨ isLineInRanges n l = true) by
    simpa using h ∅
  induction l with
  | nil => intro acc; simp [isLineInRanges]
  | cons r rest ih =>
    intro acc
    rw [List.foldl_cons, ih]
    show _ ↔ _ ∨ (_ || _) = true
    rw [Finset.mem_union, Finset.mem_Icc]
    simp only [Bool.or_eq_true, Bool.and_eq_true, decide_eq_true_eq]
    tauto

/-! ### Claim theorems for the range tracker -/

/-- C9: the merge pass is idempotent: for every list of line ranges `S` (each
with `start ≤ end`), `mergeRanges (mergeRanges S) = mergeRanges S`. -/
theorem mergeRanges_idempotent (S : List LineRange)
    (h : ∀ r ∈ S, r.start ≤ r.«end») :
    mergeRanges (mergeRanges S) = mergeRanges S := by
  have hs := mergeRanges_sep S h
  exact mergeRanges_eq_self _ hs.1 hs.2

/-- Witness for C9 at a concrete unsorted, overlapping range list. -/
theorem mergeRanges_idempotent_witness :
    (∀ r ∈ ([⟨3, 9⟩, ⟨0, 5⟩, ⟨11, 11⟩] : List LineRange), r.start ≤ r.«end») ∧
      mergeRanges (mergeRanges [⟨3, 9⟩, ⟨0, 5⟩, ⟨11, 11⟩]) =
        mergeRanges [⟨3, 9⟩, ⟨0, 5⟩, ⟨11, 11⟩] :=
  ⟨by decide, mergeRanges_idempotent _ (by decide)⟩

/-- C10: `mergeRanges` preserves the tagged-line set exactly: for every list of
ranges each with `start ≤ end` (unsorted and overlapping allowed), the set of
covered line numbers (`getLinesInRanges`) is unchanged by merging. -/
theorem mergeRanges_coverage (S : List LineRange)
    (h : ∀ r ∈ S, r.start ≤ r.«end») :
    getLinesInRanges (mergeRanges S) = getLinesInRanges S := by
  ext n
  rw [mem_getLinesInRanges, mem_getLinesInRanges, mergeRanges_cov S h n]

/-- Witness for C10 at a concrete unsorted, overlapping range list. -/
theorem mergeRanges_coverage_witness :
    (∀ r ∈ ([⟨4, 7⟩, ⟨0, 5⟩, ⟨9, 9⟩] : List LineRange), r.start ≤ r.«end») ∧
      getLinesInRanges (mergeRanges [⟨4, 7⟩, ⟨0, 5⟩, ⟨9, 9⟩]) =
        getLinesInRanges [⟨4, 7⟩, ⟨0, 5⟩, ⟨9, 9⟩] :=
  ⟨by decide, mergeRanges_coverage _ (by decide)⟩

/-- C8: `removeRange` on `[{0,10}]` with `{4,4}` yields exactly `{0,3}` and
`{5,10}`; in general a range strictly containing the removed range is split
into the portion before its start and the portion after its end. -/
theorem removeRange_split (R rem : LineRange) (hrem : rem.start ≤ rem.«end»)
    (h1 : R.start < rem.start) (h2 : rem.«end» < R.«end») :
    removeRange [⟨0, 10⟩] ⟨4, 4⟩ = [⟨0, 3⟩, ⟨5, 10⟩] ∧
      removeRange [R] rem =
        [⟨R.start, rem.start - 1⟩, ⟨rem.«end» + 1, R.«end»⟩] := by
  refine ⟨by decide, ?_⟩
  unfold removeRange removePieces
  simp only [List.flatMap_cons, List.flatMap_nil, List.append_nil]
  rw [if_neg (by omega), if_pos (by omega), if_pos h2,
    min_eq_right (by omega), max_eq_right (by omega)]
  rfl

/-- Witness for C8 at the specification's concrete example. -/
theorem removeRange_split_witness :
    removeRange [⟨0, 10⟩] ⟨4, 4⟩ = [⟨0, 3⟩, ⟨5, 10⟩] ∧
      removeRange [(⟨0, 10⟩ : LineRange)] ⟨4, 4⟩ =
        [⟨(0 : Int), (4 : Int) - 1⟩, ⟨(4 : Int) + 1, (10 : Int)⟩] :=
  removeRange_split ⟨0, 10⟩ ⟨4, 4⟩ (by decide) (by decide) (by decide)

/-- Every surviving piece of `removePieces rem range` stays inside `range` and
is structurally ordered. -/
theorem removePieces_bounds (rem range : LineRange)
    (hrange : range.start ≤ range.«end») :
    ∀ x ∈ removePieces rem range,
      range.start ≤ x.start ∧ x.«end» ≤ range.«end» ∧ x.start ≤ x.«end» := by
  intro x hx
  unfold removePieces at hx
  split at hx
  · rcases List.mem_singleton.mp hx with rfl
    exact ⟨le_refl _, le_refl _, hrange⟩
  · rename_i hov
    rcases List.mem_append.mp hx with hx' | hx' <;> revert hx' <;> split <;>
      intro hx' <;> simp only [List.mem_singleton, List.not_mem_nil] at hx' <;>
      first
      | exact absurd hx' (fun h => h)
      | (subst hx'
         refine ⟨?_, ?_, ?_⟩ <;> simp only [] <;> omega)

/-- The pieces of one range are themselves separated by the removed range. -/
theorem removePieces_pairwise (rem range : LineRange)
    (hrem : rem.start ≤ rem.«end») :
    List.Pairwise gapped (removePieces rem range) := by
  unfold removePieces
  split
  · simp
  · split <;> split <;>
      simp only [List.nil_append, List.append_nil, List.singleton_append] <;>
      first
      | exact List.Pairwise.nil
      | (refine List.pairwise_cons.mpr ⟨?_, by simp⟩
         intro b hb
         rcases List.mem_singleton.mp hb with rfl
         unfold gapped
         simp only []
         omega)
      | simp

/-- `removeRange` preserves the `AnnotationSet` invariant. -/
theorem removeRange_inv (S : List LineRange) (rem : LineRange)
    (hinv : SetInv S) (hrem : rem.start ≤ rem.«end») :
    SetInv (removeRange S rem) := by
  induction S with
  | nil => exact ⟨by simp [removeRange], by simp [removeRange]⟩
  | cons r rest ih =>
    have hr : validRange r := hinv.1 r (by simp)
    have hrestinv : SetInv rest :=
      ⟨fun x hx => hinv.1 x (by simp [hx]), (List.pairwise_cons.mp hinv.2).2⟩
    have hgap : ∀ x ∈ rest, gapped r x := (List.pairwise_cons.mp hinv.2).1
    have ih' := ih hrestinv
    have hbounds := removePieces_bounds rem r hr.2
    have hcons : removeRange (r :: rest) rem =
        removePieces rem r ++ removeRange rest rem := by
      simp [removeRange]
    rw [hcons]
    constructor
    · intro x hx
      rcases List.mem_append.mp hx with hx' | hx'
      · have hb := hbounds x hx'
        exact ⟨le_trans hr.1 hb.1, hb.2.2⟩
      · exact ih'.1 x hx'
    · refine List.pairwise_append.mpr
        ⟨removePieces_pairwise rem r hrem, ih'.2, ?_⟩
      intro a ha b hb
      have hab := hbounds a ha
      rcases List.mem_flatMap.mp hb with ⟨r', hr', hbr'⟩
      have hb' := removePieces_bounds rem r' (hinv.1 r' (by simp [hr'])).2 b hbr'
      have hg := hgap r' hr'
      unfold gapped at hg ⊢
      omega

/-- Every range surviving the validation filter of `adjustedRanges` satisfies
`start ≤ end` and `0 ≤ start`. -/
theorem adjustedRanges_valid (ranges : List LineRange) (change : TextChange) :
    ∀ x ∈ adjustedRanges ranges change, x.start ≤ x.«end» ∧ 0 ≤ x.start := by
  intro x hx
  rcases List.mem_filterMap.mp hx with ⟨a, _, hfa⟩
  revert hfa
  cases adjustOne change.startLine change.endLine (countNewlines change.text)
      ((countNewlines change.text : Int) - (change.endLine - change.startLine)) a with
  | none => intro h; simp at h
  | some nr =>
    intro h
    simp only [] at h
    split at h
    · rename_i hcond
      rcases Option.some.injEq .. ▸ h with rfl
      simpa using hcond
    · simp at h

/-- `adjustRanges` always returns a set satisfying the invariant, for any
input ranges and any change. -/
theorem adjustRanges_inv (S : List LineRange) (change : TextChange) :
    SetInv (adjustRanges S change) := by
  unfold adjustRanges
  split
  · exact ⟨by simp, by simp⟩
  · have hvalid : ∀ x ∈ adjustedRanges S change, x.start ≤ x.«end» :=
      fun x hx => (adjustedRanges_valid S change x hx).1
    have hsep := mergeRanges_sep (adjustedRanges S change) hvalid
    refine ⟨?_, hsep.2⟩
    intro r hr
    rcases mergeRanges_start_mem _ r hr with ⟨a, ha, heq⟩
    have h0 := (adjustedRanges_valid S change a ha).2
    exact ⟨heq ▸ h0, hsep.1 r hr⟩

/-- C4 counterexample: `addRange` does not discard a structurally invalid
range (`start > end`); it returns it, so the result differs from the input
set. -/
theorem addRange_invalid_not_discarded : addRange [] ⟨5, 2⟩ ≠ [] := by decide

/-- C4 as amended: `addRange` and `removeRange` perform no validity check on
their argument — an invalid range is incorporated as-is — while
`adjustRanges` is the operation that silently discards invalid
(`start > end` or `start < 0`) ranges: its output always satisfies
`0 ≤ start ≤ end`.  (All operations are total, hence never raise.) -/
theorem invalid_range_handling :
    addRange [] ⟨5, 2⟩ = [⟨5, 2⟩] ∧
      removeRange [⟨0, 10⟩] ⟨5, 2⟩ = [⟨0, 4⟩, ⟨3, 10⟩] ∧
      ∀ (S : List LineRange) (change : TextChange) (r : LineRange),
        r ∈ adjustRanges S change → 0 ≤ r.start ∧ r.start ≤ r.«end» := by
  refine ⟨by decide, by decide, ?_⟩
  intro S change r hr
  have h := adjustRanges_inv S change
  exact h.1 r hr

/-- Witness for C4's amended claim, instantiating the `adjustRanges` part at a
concrete input. -/
theorem invalid_range_handling_witness :
    addRange [] ⟨5, 2⟩ = [⟨5, 2⟩] ∧ ((0 : Int) ≤ 0 ∧ (0 : Int) ≤ 2) :=
  ⟨invalid_range_handling.1,
    invalid_range_handling.2.2 [⟨0, 2⟩] ⟨5, 5, []⟩ ⟨0, 2⟩ (by decide)⟩

/-- C5: `addRange`, `removeRange` and `adjustRanges` preserve the
`AnnotationSet` invariant (all ranges valid, sorted, pairwise separated by at
least one untagged line), for valid arguments and arbitrary edit deltas. -/
theorem ops_preserve_inv :
    (∀ (S : List LineRange) (r : LineRange), SetInv S → validRange r →
      SetInv (addRange S r)) ∧
      (∀ (S : List LineRange) (rem : LineRange), SetInv S → validRange rem →
        SetInv (removeRange S rem)) ∧
      ∀ (S : List LineRange) (change : TextChange), SetInv S →
        SetInv (adjustRanges S change) := by
  refine ⟨?_, ?_, ?_⟩
  · intro S r hinv hr
    have hvalid : ∀ x ∈ S ++ [r], x.start ≤ x.«end» := by
      intro x hx
      rcases List.mem_append.mp hx with hx' | hx'
      · exact (hinv.1 x hx').2
      · rcases List.mem_singleton.mp hx' with rfl
        exact hr.2
    have hsep := mergeRanges_sep (S ++ [r]) hvalid
    refine ⟨?_, hsep.2⟩
    intro x hx
    rcases mergeRanges_start_mem _ x hx with ⟨a, ha, heq⟩
    have h0 : 0 ≤ a.start := by
      rcases List.mem_append.mp ha with ha' | ha'
      · exact (hinv.1 a ha').1
      · rcases List.mem_singleton.mp ha' with rfl
        exact hr.1
    exact ⟨heq ▸ h0, hsep.1 x hx⟩
  · intro S rem hinv hrem
    exact removeRange_inv S rem hinv hrem.2
  · intro S change _
    exact adjustRanges_inv S change

/-- Witness for C5, applying all three preservation statements concretely. -/
theorem ops_preserve_inv_witness :
    SetInv (addRange [⟨0, 2⟩] ⟨4, 9⟩) ∧
      SetInv (removeRange [⟨0, 9⟩] ⟨3, 4⟩) ∧
      SetInv (adjustRanges [⟨2, 5⟩] ⟨0, 1, ['x']⟩) :=
  ⟨ops_preserve_inv.1 [⟨0, 2⟩] ⟨4, 9⟩ (by decide) (by decide),
    ops_preserve_inv.2.1 [⟨0, 9⟩] ⟨3, 4⟩ (by decide) (by decide),
    ops_preserve_inv.2.2 [⟨2, 5⟩] ⟨0, 1, ['x']⟩ (by decide)⟩

theorem filterMap_some_id {α : Type} (f : α → Option α) :
    ∀ l : List α, (∀ a ∈ l, f a = some a) → l.filterMap f = l
  | [], _ => rfl
  | a :: l, h => by
    rw [List.filterMap_cons, h a (by simp),
      filterMap_some_id f l fun x hx => h x (by simp [hx])]

/-- Under a zero net line delta, `adjustOne` returns a range unchanged
whenever the edit's replaced line span lies entirely before, entirely after,
or entirely inside the range. -/
theorem adjustOne_id (sl el nc : Int) (r : LineRange)
    (hv : r.start ≤ r.«end») (hle : sl ≤ el) (hnc : nc = el - sl)
    (hcase : el < r.start ∨ sl > r.«end» ∨ (r.start ≤ sl ∧ el ≤ r.«end»)) :
    adjustOne sl el nc (nc - (el - sl)) r = some r := by
  have hd : nc - (el - sl) = 0 := by omega
  rw [hd]
  cases r with
  | mk s e =>
    simp only [] at hv hcase
    unfold adjustOne
    dsimp only
    simp only [add_zero]
    rcases hcase with hc | hc | ⟨hc1, hc2⟩ <;>
      split_ifs <;>
        first
        | rfl
        | (exfalso; omega)

/-- C1 counterexample: a zero-delta edit (replacing lines 0–3 with text
spanning the same number of lines) moves the start bound of the range `{2,5}`
to `{3,5}`, because the edit overlaps the range's leading boundary. -/
theorem adjustRanges_zero_delta_counterexample :
    (countNewlines ['a', '\n', 'b', '\n', 'c', '\n', 'd'] : Int) = 3 - 0 ∧
      SetInv [(⟨2, 5⟩ : LineRange)] ∧
      adjustRanges [⟨2, 5⟩] ⟨0, 3, ['a', '\n', 'b', '\n', 'c', '\n', 'd']⟩ =
        [⟨3, 5⟩] ∧
      adjustRanges [⟨2, 5⟩] ⟨0, 3, ['a', '\n', 'b', '\n', 'c', '\n', 'd']⟩ ≠
        [⟨2, 5⟩] :=
  ⟨by decide, by decide, by decide, by decide⟩

/-- C1 as amended: a zero-delta edit (`insertedLineCount` equal to the number
of replaced lines) leaves every range's bounds unchanged provided its replaced
line span does not cross a range boundary, i.e. for each range the edit is
entirely before it, entirely after it, or entirely within it. -/
theorem adjustRanges_zero_delta (S : List LineRange) (change : TextChange)
    (hinv : SetInv S)
    (hle : change.startLine ≤ change.endLine)
    (hdelta : (countNewlines change.text : Int) =
      change.endLine - change.startLine)
    (hpos : ∀ r ∈ S, change.endLine < r.start ∨ change.startLine > r.«end» ∨
      (r.start ≤ change.startLine ∧ change.endLine ≤ r.«end»)) :
    adjustRanges S change = S := by
  unfold adjustRanges
  split
  · rename_i h; exact h.symm
  · have hadj : adjustedRanges S change = S := by
      unfold adjustedRanges
      refine filterMap_some_id _ S ?_
      intro r hr
      rw [adjustOne_id change.startLine change.endLine (countNewlines change.text)
        r (hinv.1 r hr).2 hle hdelta (hpos r hr)]
      simp only []
      rw [if_pos ⟨(hinv.1 r hr).2, (hinv.1 r hr).1⟩]
    rw [hadj]
    exact mergeRanges_eq_self S (fun r hr => (hinv.1 r hr).2) hinv.2

/-- Witness for C1's amended claim: a zero-delta edit after the range leaves
the set unchanged. -/
theorem adjustRanges_zero_delta_witness :
    SetInv [(⟨1, 2⟩ : LineRange)] ∧
      adjustRanges [⟨1, 2⟩] ⟨4, 4, []⟩ = [⟨1, 2⟩] :=
  ⟨by decide,
    adjustRanges_zero_delta [⟨1, 2⟩] ⟨4, 4, []⟩ (by decide) (by decide)
      (by decide) (by decide)⟩

example : mergeRanges [⟨3, 5⟩, ⟨0, 2⟩] = [⟨0, 5⟩] := by decide
example : mergeRanges [⟨0, 2⟩, ⟨4, 6⟩] = [⟨0, 2⟩, ⟨4, 6⟩] := by decide
example : addRange [⟨0, 2⟩] ⟨3, 5⟩ = [⟨0, 5⟩] := by decide
example : removeRange [⟨0, 10⟩] ⟨4, 4⟩ = [⟨0, 3⟩, ⟨5, 10⟩] := by decide
example : adjustRanges [⟨0, 5⟩] ⟨1, 4, []⟩ = [⟨0, 2⟩] := by decide
example : addRange [] ⟨5, 2⟩ = [⟨5, 2⟩] := by decide
example : removeRange [⟨0, 10⟩] ⟨5, 2⟩ = [⟨0, 4⟩, ⟨3, 10⟩] := by decide
example : adjustRanges [⟨2, 5⟩] ⟨0, 3, ['a', '\n', 'b', '\n', 'c', '\n', 'd']⟩ =
    [⟨3, 5⟩] := by decide

/-! ### Lemmas about the decorations map -/

theorem pushDecoration_cons (p : String × List Span) (d : Decorations)
    (key : String) (sp : Span) :
    pushDecoration (p :: d) key sp =
      (if p.1 = key then (p.1, p.2 ++ [sp]) else p) :: pushDecoration d key sp :=
  rfl

theorem spansOnLine_cons (p : String × List Span) (d : Decorations) (j : Nat) :
    spansOnLine (p :: d) j =
      (p.2.filter fun sp => sp.line == j) ++ spansOnLine d j :=
  rfl

theorem pushDecoration_keys (d : Decorations) (key : String) (sp : Span) :
    (pushDecoration d key sp).map Prod.fst = d.map Prod.fst := by
  induction d with
  | nil => rfl
  | cons p rest ih =>
    rw [pushDecoration_cons, List.map_cons, List.map_cons, ih]
    congr 1
    split <;> rfl

theorem pushAll_keys : ∀ (spans : List (String × Span)) (d : Decorations),
    (pushAll d spans).map Prod.fst = d.map Prod.fst
  | [], _ => rfl
  | ks :: spans, d => by
    show (pushAll (pushDecoration d ks.1 ks.2) spans).map Prod.fst = _
    rw [pushAll_keys spans _, pushDecoration_keys]

/-- A push to an unregistered key is dropped entirely. -/
theorem pushDecoration_not_mem (d : Decorations) (key : String) (sp : Span)
    (h : ¬key ∈ d.map Prod.fst) : pushDecoration d key sp = d := by
  induction d with
  | nil => rfl
  | cons p rest ih =>
    rw [pushDecoration_cons, ih (fun hm => h (by simp [hm]))]
    congr 1
    rw [if_neg]
    intro he
    exact h (by rw [List.map_cons, he]; exact List.mem_cons_self _ _)

theorem spansOnLine_push_ne (d : Decorations) (key : String) (sp : Span)
    (j : Nat) (h : ¬sp.line = j) :
    spansOnLine (pushDecoration d key sp) j = spansOnLine d j := by
  induction d with
  | nil => rfl
  | cons p rest ih =>
    rw [pushDecoration_cons, spansOnLine_cons, spansOnLine_cons, ih]
    congr 1
    split
    · dsimp only
      rw [List.filter_append]
      have hl : (sp.line == j) = false := by simpa using h
      simp [List.filter, hl]
    · rfl

theorem pushAll_spansOnLine_ne (j : Nat) :
    ∀ (spans : List (String × Span)) (d : Decorations),
      (∀ ks ∈ spans, ¬ks.2.line = j) →
      spansOnLine (pushAll d spans) j = spansOnLine d j
  | [], _, _ => rfl
  | ks :: spans, d, h => by
    show spansOnLine (pushAll (pushDecoration d ks.1 ks.2) spans) j = _
    rw [pushAll_spansOnLine_ne j spans _ (fun x hx => h x (by simp [hx])),
      spansOnLine_push_ne _ _ _ _ (h ks (by simp))]

theorem linkSpans_line (i : Nat) (m : LinkM) :
    ∀ ks ∈ linkSpans i m, ks.2.line = i := by
  intro ks hks
  simp only [linkSpans, List.mem_cons, List.not_mem_nil, or_false] at hks
  rcases hks with rfl | rfl | rfl | rfl | rfl <;> rfl

theorem inlineSpans_line (ck sk : String) (i : Nat) (m : InlineM) :
    ∀ ks ∈ inlineSpans ck sk i m, ks.2.line = i := by
  intro ks hks
  simp only [inlineSpans, List.mem_cons, List.not_mem_nil, or_false] at hks
  rcases hks with rfl | rfl | rfl <;> rfl

/-- Every span produced by the inline passes lies on the given line. -/
theorem inlineParts_line (i : Nat) (l : List Char) :
    ∀ ks ∈ (linkSpansOf i l ++ boldSpansOf i l ++ italicSpansOf i l ++
      strikeSpansOf i l ++ underlineSpansOf i l ++ codeSpansOf i l),
      ks.2.line = i := by
  intro ks hks
  simp only [List.mem_append] at hks
  rcases hks with ((((h | h) | h) | h) | h) | h
  · rcases List.mem_flatMap.mp h with ⟨m, _, hm⟩
    exact linkSpans_line i m ks hm
  · rcases List.mem_flatMap.mp h with ⟨m, _, hm⟩
    revert hm
    split
    · intro hm; simp at hm
    · intro hm; exact inlineSpans_line _ _ i m ks hm
  · rcases List.mem_flatMap.mp h with ⟨m, _, hm⟩
    revert hm
    split
    · intro hm; simp at hm
    · intro hm; exact inlineSpans_line _ _ i m ks hm
  · rcases List.mem_flatMap.mp h with ⟨m, _, hm⟩
    exact inlineSpans_line _ _ i m ks hm
  · rcases List.mem_flatMap.mp h with ⟨m, _, hm⟩
    exact inlineSpans_line _ _ i m ks hm
  · rcases List.mem_flatMap.mp h with ⟨m, _, hm⟩
    exact inlineSpans_line _ _ i m ks hm

theorem parseInlineFormatting_spansOnLine_ne (i : Nat) (l : List Char)
    (d : Decorations) (j : Nat) (h : ¬i = j) :
    spansOnLine (parseInlineFormatting i l d) j = spansOnLine d j := by
  unfold parseInlineFormatting
  exact pushAll_spansOnLine_ne j _ d fun ks hks => by
    rw [inlineParts_line i l ks hks]; exact h

theorem parseInlineFormatting_keys (i : Nat) (l : List Char) (d : Decorations) :
    (parseInlineFormatting i l d).map Prod.fst = d.map Prod.fst := by
  unfold parseInlineFormatting
  exact pushAll_keys _ d

/-- Processing a line only pushes spans on that line. -/
theorem decorateLine_spansOnLine_ne (l : List Char) (i : Nat)
    (d : Decorations) (j : Nat) (h : ¬i = j) :
    spansOnLine (decorateLine l i d) j = spansOnLine d j := by
  have hp : ∀ (d : Decorations) (k : String) (cs ce : Nat),
      spansOnLine (pushDecoration d k ⟨i, cs, ce⟩) j = spansOnLine d j :=
    fun d k cs ce => spansOnLine_push_ne d k ⟨i, cs, ce⟩ j h
  have hin : ∀ d : Decorations,
      spansOnLine (parseInlineFormatting i l d) j = spansOnLine d j :=
    fun d => parseInlineFormatting_spansOnLine_ne i l d j h
  unfold decorateLine
  repeat' split
  all_goals simp only [hin, hp]

theorem decorateLine_keys (l : List Char) (i : Nat) (d : Decorations) :
    (decorateLine l i d).map Prod.fst = d.map Prod.fst := by
  unfold decorateLine
  repeat' split
  all_goals simp only [parseInlineFormatting_keys, pushDecoration_keys]

/-- The line loop never touches spans of lines before its starting index. -/
theorem processLines_spansOnLine_lt :
    ∀ (ls : List (List Char)) (i0 : Nat) (inB : Bool) (d : Decorations)
      (j : Nat), j < i0 →
      spansOnLine (processLines ls i0 inB d) j = spansOnLine d j
  | [], _, _, _, _, _ => rfl
  | l :: ls, i0, inB, d, j, hj => by
    unfold processLines
    split
    · rw [processLines_spansOnLine_lt ls (i0 + 1) _ _ j (by omega),
        spansOnLine_push_ne _ _ _ _ (by simp; omega)]
    · split
      · rw [processLines_spansOnLine_lt ls (i0 + 1) _ _ j (by omega),
          spansOnLine_push_ne _ _ _ _ (by simp; omega)]
      · rw [processLines_spansOnLine_lt ls (i0 + 1) _ _ j (by omega),
          decorateLine_spansOnLine_ne _ _ _ _ (by omega)]

/-- The line loop leaves the span set of a line untouched when that line is
inside a fenced code block and is not itself a fence: its only push targets
the unregistered `codeblock-content` key. -/
theorem processLines_block_aux :
    ∀ (ls : List (List Char)) (i0 : Nat) (inB : Bool) (d : Decorations)
      (k : Nat),
      d.map Prod.fst = decorationKeys →
      stateAt ls inB k = true →
      (∀ h : k < ls.length, ¬isFence (ls.get ⟨k, h⟩) = true) →
      spansOnLine (processLines ls i0 inB d) (i0 + k) = spansOnLine d (i0 + k)
  | [], _, _, _, _, _, _, _ => rfl
  | l :: ls, i0, inB, d, 0, hkeys, hstate, hfence => by
    have hinB : inB = true := hstate
    have hnf : ¬isFence l = true := hfence (by simp)
    subst hinB
    unfold processLines
    rw [if_neg hnf, if_pos rfl,
      pushDecoration_not_mem d _ _ (by rw [hkeys]; decide)]
    exact processLines_spansOnLine_lt ls (i0 + 1) true d (i0 + 0) (by omega)
  | l :: ls, i0, inB, d, k + 1, hkeys, hstate, hfence => by
    have hstate' : stateAt ls (if isFence l = true then !inB else inB) k = true :=
      hstate
    have hfence' : ∀ h : k < ls.length, ¬isFence (ls.get ⟨k, h⟩) = true :=
      fun hlt => hfence (Nat.succ_lt_succ hlt)
    unfold processLines
    split
    · rename_i hf
      rw [pushDecoration_not_mem d _ _ (by rw [hkeys]; decide)]
      rw [if_pos hf] at hstate'
      have := processLines_block_aux ls (i0 + 1) (!inB) d k hkeys hstate' hfence'
      rw [show i0 + (k + 1) = i0 + 1 + k by omega]
      exact this
    · rename_i hf
      rw [if_neg hf] at hstate'
      split
      · rw [pushDecoration_not_mem d _ _ (by rw [hkeys]; decide)]
        have := processLines_block_aux ls (i0 + 1) inB d k hkeys hstate' hfence'
        rw [show i0 + (k + 1) = i0 + 1 + k by omega]
        exact this
      · have := processLines_block_aux ls (i0 + 1) inB (decorateLine l i0 d) k
          (by rw [decorateLine_keys]; exact hkeys) hstate' hfence'
        rw [show i0 + (k + 1) = i0 + 1 + k by omega, this,
          decorateLine_spansOnLine_ne _ _ _ _ (by omega)]

/-! ### Claim theorems for the span parser -/

/-- C2 counterexample: on the input `"```" ++ "\n" ++ "x"` the line `x` is
inside a fenced code block, yet the parser's output contains NO span at all
for that line — in particular not exactly one block-content span — because
the `codeblock-content` decoration type is commented out of
`createDecorationTypes` and the push is dropped. -/
theorem block_content_counterexample :
    spansOnLine (parseAndDecorate "```\nx".toList) 1 = [] ∧
      ((parseAndDecorate "```\nx".toList).find? fun p =>
        p.1 == "codeblock-content") = none :=
  ⟨by decide, by decide⟩

/-- C2 as amended: while `insideBlock` is true, a line inside a fenced code
block (other than a closing fence) produces NO spans at all in the parser's
output: the attempted `codeblock-content` push targets an unregistered
decoration type and is dropped, and no inline matching is performed. -/
theorem block_lines_produce_no_spans (text : List Char) (j : Nat)
    (hstate : stateAt (splitLines text) false j = true)
    (hfence : ∀ h : j < (splitLines text).length,
      ¬isFence ((splitLines text).get ⟨j, h⟩) = true) :
    spansOnLine (parseAndDecorate text) j = [] := by
  unfold parseAndDecorate
  have h := processLines_block_aux (splitLines text) 0 false initDecorations j
    (by rfl) hstate hfence
  rw [Nat.zero_add] at h
  rw [h]
  rfl

/-- Witness for C2's amended claim at the concrete unclosed code block. -/
theorem block_lines_produce_no_spans_witness :
    stateAt (splitLines "```\nx".toList) false 1 = true ∧
      spansOnLine (parseAndDecorate "```\nx".toList) 1 = [] :=
  ⟨by decide,
    block_lines_produce_no_spans "```\nx".toList 1 (by decide)
      (fun _ => by show ¬isFence ['x'] = true; decide)⟩

/-- C6: the span parser is deterministic: it is a pure function of the input
text, so two invocations on the same text produce identical span lists in
identical order. -/
theorem parse_deterministic (t1 t2 : List Char) (h : t1 = t2) :
    parseAndDecorate t1 = parseAndDecorate t2 := by rw [h]

/-- Witness for C6. -/
theorem parse_deterministic_witness :
    parseAndDecorate ['a'] = parseAndDecorate ['a'] :=
  parse_deterministic ['a'] ['a'] rfl

/-- C3 counterexample: on the heading line `# **b**` the parser emits the
heading spans but NO bold spans: the heading branch `continue`s without ever
running inline matching on the remainder. -/
theorem heading_no_inline_counterexample :
    getSpans (parseAndDecorate "# **b**".toList) "h1-syntax" = [⟨0, 0, 2⟩] ∧
      getSpans (parseAndDecorate "# **b**".toList) "h1-content" = [⟨0, 2, 7⟩] ∧
      getSpans (parseAndDecorate "# **b**".toList) "bold-content" = [] ∧
      getSpans (parseAndDecorate "# **b**".toList) "bold-syntax" = [] :=
  ⟨by decide, by decide, by decide, by decide⟩

/-- C3 as amended: a heading line emits only its syntax and content spans and
skips inline matching entirely; blockquote and list lines emit their marker
span and then the WHOLE line (prefix included, not the remainder) is passed
into inline matching, so an inline construct after the prefix still produces
its spans. -/
theorem container_inline_handling :
    (∀ (text l : List Char) (level : Nat),
      splitLines text = [l] → isFence l = false → headingMatch l = some level →
      parseAndDecorate text =
        pushDecoration
          (pushDecoration initDecorations ("h" ++ toString level ++ "-syntax")
            ⟨0, 0, level + 1⟩)
          ("h" ++ toString level ++ "-content") ⟨0, level + 1, l.length⟩) ∧
      (∀ (text l g : List Char),
        splitLines text = [l] → isFence l = false → headingMatch l = none →
        hrMatch l = false → blockquoteMatch l = some g → taskMatch l = none →
        listMatch l = none →
        parseAndDecorate text =
          parseInlineFormatting 0 l
            (if !g.isEmpty then
              pushDecoration
                (pushDecoration initDecorations "blockquote-marker"
                  ⟨0, 0, bqMarkerEnd l⟩)
                "blockquote-content" ⟨0, bqMarkerEnd l, l.length⟩
            else
              pushDecoration initDecorations "blockquote-marker"
                ⟨0, 0, bqMarkerEnd l⟩)) ∧
      (∀ (text l : List Char) (markerStart markerLen : Nat),
        splitLines text = [l] → isFence l = false → headingMatch l = none →
        hrMatch l = false → blockquoteMatch l = none → taskMatch l = none →
        listMatch l = some (markerStart, markerLen) →
        parseAndDecorate text =
          parseInlineFormatting 0 l
            (pushDecoration initDecorations "list-marker"
              ⟨0, markerStart, markerStart + markerLen + 1⟩)) ∧
      getSpans (parseAndDecorate "> **b**".toList) "blockquote-marker" =
        [⟨0, 0, 2⟩] ∧
      getSpans (parseAndDecorate "> **b**".toList) "bold-content" = [⟨0, 4, 5⟩] ∧
      getSpans (parseAndDecorate "- **b**".toList) "list-marker" = [⟨0, 0, 2⟩] ∧
      getSpans (parseAndDecorate "- **b**".toList) "bold-content" = [⟨0, 4, 5⟩] := by
  refine ⟨?_, ?_, ?_, by decide, by decide, by decide, by decide⟩
  · intro text l level hsplit hf hh
    unfold parseAndDecorate
    rw [hsplit]
    unfold processLines
    rw [if_neg (by simp [hf])]
    show decorateLine l 0 initDecorations = _
    unfold decorateLine
    rw [hh]
  · intro text l g hsplit hf hh hhr hbq htask hlist
    unfold parseAndDecorate
    rw [hsplit]
    unfold processLines
    rw [if_neg (by simp [hf])]
    show decorateLine l 0 initDecorations = _
    unfold decorateLine
    rw [hh, hbq, htask, hlist]
    simp only [if_neg (by simp [hhr] : ¬hrMatch l = true)]
  · intro text l markerStart markerLen hsplit hf hh hhr hbq htask hlist
    unfold parseAndDecorate
    rw [hsplit]
    unfold processLines
    rw [if_neg (by simp [hf])]
    show decorateLine l 0 initDecorations = _
    unfold decorateLine
    rw [hh, hbq, htask, hlist]
    simp only [if_neg (by simp [hhr] : ¬hrMatch l = true)]

/-- Witness for C3's amended claim at a concrete blockquote line. -/
theorem container_inline_handling_witness :
    parseAndDecorate "> x".toList =
      parseInlineFormatting 0 "> x".toList
        (if !(['x'].isEmpty) then
          pushDecoration
            (pushDecoration initDecorations "blockquote-marker"
              ⟨0, 0, bqMarkerEnd "> x".toList⟩)
            "blockquote-content" ⟨0, bqMarkerEnd "> x".toList,
              "> x".toList.length⟩
        else
          pushDecoration initDecorations "blockquote-marker"
            ⟨0, 0, bqMarkerEnd "> x".toList⟩) :=
  container_inline_handling.2.1 "> x".toList "> x".toList ['x'] (by decide)
    (by decide) (by decide) (by decide) (by decide) (by decide) (by decide)

theorem flatMap_if_filter {α β : Type} (p : α → Bool) (f : α → List β) :
    ∀ l : List α,
      (l.flatMap fun x => if p x then [] else f x) =
        (l.filter fun x => !p x).flatMap f
  | [] => rfl
  | x :: l => by
    rw [List.flatMap_cons, List.filter_cons]
    cases hx : p x <;> simp [hx, flatMap_if_filter p f l]

/-- C7: on `[a](http://x)` the parser emits the link marker/text/url spans and
no bold or italic spans; in general the bold and italic passes discard
exactly those matches whose full range intersects a link's column range
(`isExcluded`, which on non-degenerate ranges is precisely interval
intersection), while the strikethrough, underline and inline-code passes are
not filtered against links at all. -/
theorem link_exclusion_policy :
    (getSpans (parseAndDecorate "[a](http://x)".toList) "link-syntax" =
        [⟨0, 0, 1⟩, ⟨0, 2, 4⟩, ⟨0, 12, 13⟩] ∧
      getSpans (parseAndDecorate "[a](http://x)".toList) "link-text" =
        [⟨0, 1, 2⟩] ∧
      getSpans (parseAndDecorate "[a](http://x)".toList) "link-url" =
        [⟨0, 4, 12⟩] ∧
      getSpans (parseAndDecorate "[a](http://x)".toList) "bold-content" = [] ∧
      getSpans (parseAndDecorate "[a](http://x)".toList) "bold-syntax" = [] ∧
      getSpans (parseAndDecorate "[a](http://x)".toList) "italic-content" = [] ∧
      getSpans (parseAndDecorate "[a](http://x)".toList) "italic-syntax" = [] ∧
      getSpans (parseAndDecorate "[*a*](http://x*b*)".toList) "italic-content" =
        [] ∧
      getSpans (parseAndDecorate "[~~a~~](http://x)".toList)
        "strikethrough-content" = [⟨0, 3, 4⟩]) ∧
      (∀ (lineNo : Nat) (l : List Char),
        boldSpansOf lineNo l =
          ((boldMatches l).filter fun m =>
            !isExcluded (excludedOf l) m.fullStart m.fullEnd).flatMap
            (inlineSpans "bold-content" "bold-syntax" lineNo) ∧
        italicSpansOf lineNo l =
          ((italicMatches l).filter fun m =>
            !isExcluded (excludedOf l) m.fullStart m.fullEnd).flatMap
            (inlineSpans "italic-content" "italic-syntax" lineNo)) ∧
      (∀ (lineNo : Nat) (l : List Char),
        strikeSpansOf lineNo l = (strikeMatches l).flatMap
          (inlineSpans "strikethrough-content" "strikethrough-syntax" lineNo) ∧
        underlineSpansOf lineNo l = (underlineMatches l).flatMap
          (inlineSpans "underline-content" "underline-syntax" lineNo) ∧
        codeSpansOf lineNo l = (codeMatches l).flatMap
          (inlineSpans "code-content" "code-syntax" lineNo)) ∧
      ∀ s e a b : Nat, s < e → a < b →
        (isExcluded [(a, b)] s e = true ↔ s < b ∧ a < e) := by
  refine ⟨⟨by decide, by decide, by decide, by decide, by decide, by decide,
    by decide, by decide, by decide⟩, ?_, ?_, ?_⟩
  · intro lineNo l
    constructor
    · unfold boldSpansOf
      exact flatMap_if_filter _ _ (boldMatches l)
    · unfold italicSpansOf
      exact flatMap_if_filter _ _ (italicMatches l)
  · intro lineNo l
    exact ⟨rfl, rfl, rfl⟩
  · intro s e a b hse hab
    unfold isExcluded
    simp only [List.any_cons, List.any_nil, Bool.or_false, Bool.or_eq_true,
      Bool.and_eq_true, decide_eq_true_eq]
    omega

/-- Witness for C7, instantiating the intersection characterization at a
concrete excluded range. -/
theorem link_exclusion_policy_witness :
    getSpans (parseAndDecorate "[a](http://x)".toList) "link-text" =
      [⟨0, 1, 2⟩] ∧ (isExcluded [(0, 13)] 1 4 = true ↔ 1 < 13 ∧ 0 < 4) :=
  ⟨link_exclusion_policy.1.2.1,
    link_exclusion_policy.2.2.2 1 4 0 13 (by decide) (by decide)⟩

end Markovia
